import Mathlib

/-!
Verification of the standardisation pipeline in `standardise.py`
(class `Standardization`).

A molecular graph is embedded as a list of atoms (atomic number and
formal charge), a list of bonds (pairs of atom indices) and a property
bag (ordered string-to-string association list, modelling the RDKit
property dictionary).  Pure functions of the source are translated
directly; the external collaborators (RDKit property-cache update,
the Atkinson-standardiser neutraliser and the InChI generator) are
parameters of the development, bundled in `Collaborators`.
-/

namespace Standardise

/-- An atom of a molecular graph: atomic number and formal charge. -/
structure Atom where
  num : Nat
  charge : Int
deriving DecidableEq

/-- A molecular graph: atoms indexed by list position, bonds as pairs of
atom indices, and the molecule-level property dictionary. -/
structure Mol where
  atoms : List Atom
  bonds : List (Nat × Nat)
  props : List (String × String)
deriving DecidableEq

def defaultAtom : Atom := ⟨0, 0⟩

def defaultMol : Mol := ⟨[], [], []⟩

instance : Inhabited Atom := ⟨defaultAtom⟩

instance : Inhabited Mol := ⟨defaultMol⟩

/-- RDKit `GetDegree`: number of bonds incident to atom `i`. -/
def degree (m : Mol) (i : Nat) : Nat :=
  (m.bonds.filter (fun b => b.1 == i || b.2 == i)).length

/-- RDKit `GetNumHeavyAtoms`: atoms other than hydrogen. -/
def GetNumHeavyAtoms (m : Mol) : Nat :=
  (m.atoms.filter (fun a => a.num != 1)).length

/-- The fixed salt-metal list of `remove_salt_metals` (Li, Na, Mg, K, Ca). -/
def salt_metals : List Nat := [3, 11, 12, 19, 20]

/-- The loop body condition of `remove_salt_metals`: atom `i` is collected
for removal when its atomic number is a salt metal and its degree is not
greater than 1. -/
def saltCond (m : Mol) (i : Nat) : Bool :=
  decide ((m.atoms.getD i defaultAtom).num ∈ salt_metals) && decide (degree m i ≤ 1)

/-- The `to_remove` list of `remove_salt_metals`: indices collected in
ascending atom order, before any removal happens. -/
def saltTargets (m : Mol) : List Nat :=
  (List.range m.atoms.length).filter (saltCond m)

/-- Index shift performed by RDKit when atom `idx` is deleted: indices
above `idx` move down by one. -/
def shiftIdx (idx j : Nat) : Nat := if idx < j then j - 1 else j

/-- RDKit `EditableMol.RemoveAtom`: delete the atom at `idx`, drop the
bonds incident to it and renumber the remaining bond endpoints. -/
def removeAtom (m : Mol) (idx : Nat) : Mol :=
  { atoms := m.atoms.eraseIdx idx
    bonds := (m.bonds.filter (fun b => !(b.1 == idx) && !(b.2 == idx))).map
      (fun b => (shiftIdx idx b.1, shiftIdx idx b.2))
    props := m.props }

/-- `Standardization.remove_salt_metals`: collect the indices of free
salt-metal atoms, then delete them back to front; if nothing was
collected the molecule is returned as is. -/
def remove_salt_metals (m : Mol) : Mol :=
  let to_remove := saltTargets m
  if to_remove.isEmpty then m
  else (to_remove.reverse).foldl removeAtom m

/-- Loop of `Standardization.is_inorganic`: return `false` on the first
carbon or silicon atom, `true` when the loop finishes. -/
def inorganicLoop : List Atom → Bool
  | [] => true
  | a :: t =>
    if a.num == 6 then false
    else if a.num == 14 then false
    else inorganicLoop t

/-- `Standardization.is_inorganic`. -/
def is_inorganic (m : Mol) : Bool := inorganicLoop m.atoms

/-- The allowed-atom list of `Standardization.contains_metal`
(H, C, N, O, F, Si, P, S, Cl, Br, I). -/
def allowed_atoms : List Nat := [1, 6, 7, 8, 9, 14, 15, 16, 17, 35, 53]

/-- Loop of `Standardization.contains_metal`: return `true` on the first
atom outside the allowed list, `false` when the loop finishes. -/
def metalLoop : List Atom → Bool
  | [] => false
  | a :: t =>
    if decide (a.num ∈ allowed_atoms) then metalLoop t else true

/-- `Standardization.contains_metal`. -/
def contains_metal (m : Mol) : Bool := metalLoop m.atoms

/-- Loop of `Standardization.is_silane`: two independent flags recording
whether a silicon atom and a carbon atom have been seen. -/
def silaneLoop : List Atom → Bool → Bool → Bool × Bool
  | [], fc, fs => (fc, fs)
  | a :: t, fc, fs =>
    silaneLoop t (if a.num == 6 then true else fc) (if a.num == 14 then true else fs)

/-- `Standardization.is_silane`: true exactly when both the carbon flag
and the silicon flag were set by the loop. -/
def is_silane (m : Mol) : Bool :=
  let r := silaneLoop m.atoms false false
  if r.1 && r.2 then true else false

/-- Loop of `Standardization.get_largest_component`: `i` is the enumerate
counter, `largest` the index of the current best component and `num` its
heavy-atom count; a later component replaces the best one only on a
strictly greater count. -/
def selLoop : List Mol → Nat → Nat → Nat → Nat
  | [], _, largest, _ => largest
  | c :: t, i, largest, num =>
    if GetNumHeavyAtoms c > num then selLoop t (i + 1) i (GetNumHeavyAtoms c)
    else selLoop t (i + 1) largest num

/-- The index chosen by `get_largest_component` (`largest_component`
after the loop, starting from index 0 and count 0). -/
def largestIdx (components : List Mol) : Nat := selLoop components 0 0 0

/-- `Standardization.get_largest_component`: index the component list at
the chosen position. -/
def get_largest_component (components : List Mol) : Mol :=
  components.getD (largestIdx components) defaultMol

/-- Modelled from the spec: one relaxation round of connected-component
labelling for the Fragment Splitter collaborator; every bond propagates
the smaller of its endpoint labels to both endpoints. -/
def bondRound (bonds : List (Nat × Nat)) (labels : List Nat) : List Nat :=
  bonds.foldl
    (fun ls b =>
      if b.1 < ls.length && b.2 < ls.length then
        let mn := min (ls.getD b.1 0) (ls.getD b.2 0)
        (ls.set b.1 mn).set b.2 mn
      else ls)
    labels

/-- Modelled from the spec: component labels of the atoms, obtained by
iterating `bondRound` as many times as there are atoms, starting from the
identity labelling; the label of an atom converges to the least atom
index of its connected component. -/
def fragLabels (m : Mol) : List Nat :=
  (List.range m.atoms.length).foldl (fun ls _ => bondRound m.bonds ls)
    (List.range m.atoms.length)

/-- Deduplicate a list keeping the first occurrence of each element. -/
def dedupKeepFirst (l : List Nat) : List Nat :=
  l.foldl (fun acc x => if acc.contains x then acc else acc ++ [x]) []

/-- Modelled from the spec: the Fragment Splitter collaborator
(`Chem.GetMolFrags` with `asMols=True`), which is external to the
repository.  It returns one molecular graph per connected component, in
order of the first atom of the component, with contiguously re-indexed
atoms and bonds; the fragments carry no molecule-level properties. -/
def GetMolFrags (m : Mol) : List Mol :=
  let ls := fragLabels m
  let roots := dedupKeepFirst ls
  roots.map (fun r =>
    let ks := (List.range m.atoms.length).filter (fun i => ls.getD i 0 == r)
    { atoms := ks.map (fun i => m.atoms.getD i defaultAtom)
      bonds := (m.bonds.filter (fun b => ls.getD b.1 0 == r && ls.getD b.2 0 == r)).map
        (fun b => (ks.indexOf b.1, ks.indexOf b.2))
      props := [] })

/-- Modelled from the spec: the external collaborator interfaces consumed
by `standardise` but implemented outside this repository — the RDKit
property-cache update (`UpdatePropertyCache`, which raises on a failed
structural sanity check, hence `Option`), the Atkinson-standardiser
neutraliser (`neutralise.run`, which may likewise raise), and the two
InChI functions used to derive the canonical key. -/
structure Collaborators where
  updatePropertyCache : Mol → Option Mol
  neutralise : Mol → Option Mol
  molToInchi : Mol → String
  inchiToInchiKey : String → String

/-- The per-fragment neutralisation step of `remove_duplicate_components`
and of the final part of `standardise`: `UpdatePropertyCache` followed by
`neutralise`, failing if either raises. -/
def neutraliseStep (C : Collaborators) (m : Mol) : Option Mol :=
  (C.updatePropertyCache m).bind C.neutralise

/-- The canonical key of a (neutralised) fragment:
`InchiToInchiKey(MolToInchi(comp))`. -/
def keyOf (C : Collaborators) (m : Mol) : String :=
  C.inchiToInchiKey (C.molToInchi m)

/-- Loop of `Standardization.remove_duplicate_components` over the
components, threading the insertion-ordered `inchi_keys` dictionary
(modelled as an association list); `none` models an exception escaping
the loop. -/
def rdcLoop (C : Collaborators) : List Mol → List (String × Mol) →
    Option (List (String × Mol))
  | [], dict => some dict
  | comp :: t, dict =>
    match C.updatePropertyCache comp with
    | none => none
    | some c1 =>
      match C.neutralise c1 with
      | none => none
      | some c2 =>
        let key := keyOf C c2
        if (dict.map Prod.fst).contains key then rdcLoop C t dict
        else rdcLoop C t (dict ++ [(key, c2)])

/-- `Standardization.remove_duplicate_components`: run the loop on an
empty dictionary and return its values in insertion order. -/
def remove_duplicate_components (C : Collaborators) (components : List Mol) :
    Option (List Mol) :=
  (rdcLoop C components []).map (List.map Prod.snd)

/-- The flag-then-pop pattern of `standardise`: collect the indices of
flagged components in ascending order, then pop them back to front (the
pop loop runs only when the flag list is non-empty). -/
def removeFlagged (l : List Mol) (p : Mol → Bool) : List Mol :=
  let flagged := (List.range l.length).filter (fun i => p (l.getD i defaultMol))
  if flagged.isEmpty then l
  else flagged.reverse.foldl (fun acc i => acc.eraseIdx i) l

/-- RDKit `SetProp` on the property dictionary: overwrite the value of an
existing key in place, otherwise append the new pair. -/
def setPropList : List (String × String) → String → String → List (String × String)
  | [], k, v => [(k, v)]
  | (k1, v1) :: t, k, v =>
    if k1 == k then (k, v) :: t else (k1, v1) :: setPropList t k v

/-- RDKit `mol.SetProp(prop, value)`. -/
def SetProp (m : Mol) (k v : String) : Mol :=
  { m with props := setPropList m.props k v }

/-- The property re-attachment loop of `standardise`
(`for prop, value in properties.items(): mol.SetProp(prop, str(value))`). -/
def setProps (m : Mol) (properties : List (String × String)) : Mol :=
  properties.foldl (fun acc kv => SetProp acc kv.1 kv.2) m

/-- Rejection message of the broad `except` around neutralisation. -/
def msgNeutralise : String := "Molecule could not be neutralised"

/-- Rejection message when every component was removed. -/
def msgOnlyMetals : String := "Molecule contained only metals or inorganic compounds"

/-- Rejection message of the single-component metal check. -/
def msgMetal : String := "Molecule contains metal"

/-- Rejection message of the single-component inorganic check. -/
def msgInorganic : String := "Molecule is inorganic"

/-- Everything `Standardization.standardise` does before the final
neutralisation `try` block: salt stripping, fragment splitting, the
multi-component branch (deduplication, inorganic and metal filtering,
selection, property re-attachment) and the single-component checks.
`Except.error` carries the message of an early `return False`. -/
def selectStage (C : Collaborators) (mol0 : Mol) : Except String Mol :=
  let mol := remove_salt_metals mol0
  let components := GetMolFrags mol
  if components.length > 1 then
    let properties := mol.props
    match remove_duplicate_components C components with
    | none => Except.error msgNeutralise
    | some comps1 =>
      let comps2 := removeFlagged comps1 is_inorganic
      let comps3 := removeFlagged comps2 contains_metal
      if comps3.length > 1 then
        Except.ok (setProps (get_largest_component comps3) properties)
      else if comps3.length > 0 then
        Except.ok (setProps (comps3.getD 0 defaultMol) properties)
      else Except.error msgOnlyMetals
  else
    if contains_metal mol then Except.error msgMetal
    else if is_inorganic mol then Except.error msgInorganic
    else Except.ok mol

/-- `Standardization.standardise`: the selection stage followed by the
final `try` block (`UpdatePropertyCache` then `neutralise`), returning
the same `(Bool, molecule-or-message)` pair as the source. -/
def standardise (C : Collaborators) (mol0 : Mol) : Bool × (Mol ⊕ String) :=
  match selectStage C mol0 with
  | Except.error msg => (false, Sum.inr msg)
  | Except.ok m =>
    match neutraliseStep C m with
    | none => (false, Sum.inr msgNeutralise)
    | some m1 => (true, Sum.inl m1)

/-! ### Specification-side reformulations -/

/-- Specification view of deduplication, key-and-value level: keep the
first component of each distinct key, threading the set of keys already
seen. -/
def dedupPairs (key : Mol → String) : List Mol → List String → List (String × Mol)
  | [], _ => []
  | c :: t, seen =>
    if seen.contains (key c) then dedupPairs key t seen
    else (key c, c) :: dedupPairs key t (seen ++ [key c])

/-- Specification view of deduplication: keep the first component of each
distinct key, in first-seen order. -/
def dedupFirst (key : Mol → String) : List Mol → List String → List Mol
  | [], _ => []
  | c :: t, seen =>
    if seen.contains (key c) then dedupFirst key t seen
    else c :: dedupFirst key t (seen ++ [key c])

/-- Neutralise every component in order, failing when any single
neutralisation fails. -/
def neutraliseAll (C : Collaborators) : List Mol → Option (List Mol)
  | [] => some []
  | c :: t =>
    match neutraliseStep C c with
    | none => none
    | some nc => (neutraliseAll C t).map (fun l => nc :: l)

/-- Modelled from the spec: the filtering contract of section 9 — both
flag sets computed against the same pre-removal fragment list, and all
flagged fragments removed together. -/
def survivingFragments (l : List Mol) : List Mol :=
  l.filter (fun c => !(is_inorganic c) && !(contains_metal c))

/-! ### Concrete instances used as witnesses -/

/-- A collaborator whose neutraliser and property-cache update are the
identity and whose canonical key is constant. -/
def trivialCollab : Collaborators := ⟨some, some, fun _ => "", id⟩

/-- A collaborator whose neutraliser clears every formal charge. -/
def zeroChargeCollab : Collaborators :=
  ⟨some, fun m => some ⟨m.atoms.map (fun a => ⟨a.num, 0⟩), m.bonds, m.props⟩,
    fun _ => "", id⟩

/-- A single iron atom (spec scenario C). -/
def ironMol : Mol := ⟨[⟨26, 0⟩], [], []⟩

/-- A single water fragment: O bonded to two H. -/
def waterMol : Mol := ⟨[⟨8, 0⟩, ⟨1, 0⟩, ⟨1, 0⟩], [(0, 1), (0, 2)], []⟩

/-- A potassium atom bonded to a sodium atom bonded to an oxygen atom:
K has degree 1, Na degree 2, O degree 1. -/
def kNaOMol : Mol := ⟨[⟨19, 0⟩, ⟨11, 0⟩, ⟨8, 0⟩], [(0, 1), (1, 2)], []⟩

/-- Sodium bonded to an oxygen which is bonded to a carbon: the sodium is
a free salt metal and no bond joins two salt metals. -/
def naOCMol : Mol := ⟨[⟨11, 0⟩, ⟨8, 0⟩, ⟨6, 0⟩], [(0, 1), (1, 2)], []⟩

/-- Two disconnected carbon atoms with a property attached. -/
def twoCMol : Mol := ⟨[⟨6, 0⟩, ⟨6, 0⟩], [], [("ID", "42")]⟩

/-- An oxygen anion fragment. -/
def oMinusFrag : Mol := ⟨[⟨8, -1⟩], [], []⟩

/-- A neutral oxygen fragment. -/
def oFrag : Mol := ⟨[⟨8, 0⟩], [], []⟩

/-- A chain of `k` carbon atoms (heavy-atom count `k`). -/
def carbonChain (k : Nat) : Mol := ⟨List.replicate k ⟨6, 0⟩, [], []⟩

/-- Three organic components with heavy-atom counts 4, 7 and 7. -/
def tieComponents : List Mol := [carbonChain 4, carbonChain 7, carbonChain 7]

/-! ### Specification-side descriptions of index-based removal -/

/-- Indices of `List.range n` that survive a removal batch `ids`. -/
def keptIdx (n : Nat) (ids : List Nat) : List Nat :=
  (List.range n).filter (fun i => !ids.contains i)

/-- The renumbering performed by deleting the atoms of `ids`: an index
`j` moves down by the number of deleted indices below it. -/
def newIdx (ids : List Nat) (j : Nat) : Nat :=
  j - ids.countP (fun r => decide (r < j))

theorem map_getD_range {α : Type} (l : List α) (d : α) :
    (List.range l.length).map (fun i => l.getD i d) = l := by
  induction l with
  | nil => rfl
  | cons a t ih =>
    have hg : ((fun i => (a :: t).getD i d) ∘ Nat.succ) =
        (fun i : Nat => t.getD i d) := by
      funext i; rfl
    simp only [List.length_cons, List.range_succ_eq_map, List.map_cons, List.map_map,
      List.getD_cons_zero, hg, ih]

theorem filter_range_map_getD {α : Type} (l : List α) (p : α → Bool) (d : α) :
    ((List.range l.length).filter (fun i => p (l.getD i d))).map
      (fun i => l.getD i d) = l.filter p := by
  induction l with
  | nil => rfl
  | cons a t ih =>
    have hq : ((fun i => p ((a :: t).getD i d)) ∘ Nat.succ) =
        (fun i : Nat => p (t.getD i d)) := by
      funext i; rfl
    have hg : ((fun i => (a :: t).getD i d) ∘ Nat.succ) =
        (fun i : Nat => t.getD i d) := by
      funext i; rfl
    simp only [List.length_cons, List.range_succ_eq_map, List.filter_cons,
      List.getD_cons_zero, List.filter_map, hq]
    by_cases hpa : p a = true
    · simp only [hpa, if_true, List.map_cons, List.getD_cons_zero, List.map_map, hg, ih]
    · simp only [hpa, Bool.false_eq_true, if_false, List.map_map, hg, ih]

theorem eraseIdx_map {α β : Type} (f : α → β) :
    ∀ (l : List α) (i : Nat), (l.map f).eraseIdx i = (l.eraseIdx i).map f := by
  intro l
  induction l with
  | nil => intro i; rfl
  | cons a t ih =>
    intro i
    cases i with
    | zero => rfl
    | succ i => simp [ih i]

theorem countP_and_split {α : Type} (l : List α) (p q : α → Bool) :
    l.countP p = l.countP (fun a => p a && q a) + l.countP (fun a => p a && !q a) := by
  induction l with
  | nil => rfl
  | cons a t ih =>
    by_cases hp : p a = true <;> by_cases hq : q a = true <;>
      simp [List.countP_cons, hp, hq, ih] <;> omega

theorem countP_interval_le (rem : List Nat) (hnd : rem.Nodup) (a b : Nat) :
    rem.countP (fun x => decide (a < x) && decide (x < b)) ≤ b - a - 1 := by
  rw [List.countP_eq_length_filter]
  have hsub : (rem.filter (fun x => decide (a < x) && decide (x < b))).toFinset ⊆
      Finset.Ioo a b := by
    intro x hx
    rw [List.mem_toFinset, List.mem_filter] at hx
    simp only [Bool.and_eq_true, decide_eq_true_eq] at hx
    simp [Finset.mem_Ioo, hx.2.1, hx.2.2]
  have hcard := Finset.card_le_card hsub
  rw [List.toFinset_card_of_nodup (hnd.filter _), Nat.card_Ioo] at hcard
  exact hcard

theorem countP_lt_le (rem : List Nat) (hnd : rem.Nodup) (a : Nat) :
    rem.countP (fun x => decide (x < a)) ≤ a := by
  rw [List.countP_eq_length_filter]
  have hsub : (rem.filter (fun x => decide (x < a))).toFinset ⊆ Finset.range a := by
    intro x hx
    rw [List.mem_toFinset, List.mem_filter] at hx
    simp only [decide_eq_true_eq] at hx
    simpa [Finset.mem_range] using hx.2
  have hcard := Finset.card_le_card hsub
  rw [List.toFinset_card_of_nodup (hnd.filter _), Finset.card_range] at hcard
  exact hcard

theorem newIdx_lt_newIdx (rem : List Nat) (hnd : rem.Nodup) (a b : Nat)
    (ha : ¬ a ∈ rem) (hab : a < b) : newIdx rem a < newIdx rem b := by
  have h1 : rem.countP (fun x => decide (x < b)) =
      rem.countP (fun x => decide (x < b) && decide (x < a)) +
        rem.countP (fun x => decide (x < b) && !decide (x < a)) :=
    countP_and_split rem _ _
  have h2 : rem.countP (fun x => decide (x < b) && decide (x < a)) =
      rem.countP (fun x => decide (x < a)) := by
    refine List.countP_congr ?_
    intro x _
    simp only [Bool.and_eq_true, decide_eq_true_eq]
    omega
  have h3 : rem.countP (fun x => decide (x < b) && !decide (x < a)) ≤
      rem.countP (fun x => decide (a < x) && decide (x < b)) := by
    refine List.countP_mono_left ?_
    intro x hx hpx
    simp only [Bool.and_eq_true, Bool.not_eq_true', decide_eq_true_eq,
      decide_eq_false_iff_not] at hpx
    have hne : x ≠ a := fun h => ha (h ▸ hx)
    have : a < x := Nat.lt_of_le_of_ne (Nat.le_of_not_lt hpx.2) (Ne.symm hne)
    simp [this, hpx.1]
  have h4 := countP_interval_le rem hnd a b
  have h5 := countP_lt_le rem hnd a
  unfold newIdx
  omega

theorem newIdx_self_of_gt (rest : List Nat) (r : Nat)
    (hgt : ∀ x ∈ rest, r < x) : newIdx rest r = r := by
  have h0 : rest.countP (fun x => decide (x < r)) = 0 := by
    rw [List.countP_eq_zero]
    intro x hx
    simp only [decide_eq_true_eq]
    exact Nat.not_lt.mpr (Nat.le_of_lt (hgt x hx))
  simp [newIdx, h0]

theorem newIdx_eq_iff (rest : List Nat) (r j : Nat) (hnd : rest.Nodup)
    (hgt : ∀ x ∈ rest, r < x) (hj : ¬ j ∈ rest) :
    newIdx rest j = r ↔ j = r := by
  have hrmem : ¬ r ∈ rest := fun h => Nat.lt_irrefl r (hgt r h)
  constructor
  · intro he
    rcases Nat.lt_trichotomy j r with h | h | h
    · have := newIdx_lt_newIdx rest hnd j r hj h
      rw [newIdx_self_of_gt rest r hgt, he] at this
      omega
    · exact h
    · have := newIdx_lt_newIdx rest hnd r j hrmem h
      rw [newIdx_self_of_gt rest r hgt, he] at this
      omega
  · intro he
    rw [he]
    exact newIdx_self_of_gt rest r hgt

theorem shift_newIdx (rest : List Nat) (r j : Nat) (hnd : rest.Nodup)
    (hgt : ∀ x ∈ rest, r < x) (hjr : j ≠ r) :
    shiftIdx r (newIdx rest j) = newIdx (r :: rest) j := by
  have hrmem : ¬ r ∈ rest := fun h => Nat.lt_irrefl r (hgt r h)
  rcases Nat.lt_or_ge j r with h | h
  · have h0 : rest.countP (fun x => decide (x < j)) = 0 := by
      rw [List.countP_eq_zero]
      intro x hx
      simp only [decide_eq_true_eq]
      have := hgt x hx
      omega
    have hnj : newIdx rest j = j := by simp [newIdx, h0]
    have hcons : (r :: rest).countP (fun x => decide (x < j)) = 0 := by
      rw [List.countP_cons, h0]
      have : ¬ r < j := by omega
      simp [this]
    rw [hnj]
    unfold newIdx
    rw [hcons]
    unfold shiftIdx
    have hnlt : ¬ r < j := by omega
    rw [if_neg hnlt]
    omega
  · have hrj : r < j := Nat.lt_of_le_of_ne h (Ne.symm hjr)
    have hlt : r < newIdx rest j := by
      have := newIdx_lt_newIdx rest hnd r j hrmem hrj
      rwa [newIdx_self_of_gt rest r hgt] at this
    have hcons : (r :: rest).countP (fun x => decide (x < j)) =
        rest.countP (fun x => decide (x < j)) + 1 := by
      rw [List.countP_cons]
      simp [hrj]
    unfold newIdx at hlt ⊢
    rw [hcons]
    unfold shiftIdx
    rw [if_pos hlt]
    omega

theorem filter_range_eraseIdx (n r : Nat) (p : Nat → Bool) (hr : r < n)
    (hp : ∀ i, i ≤ r → p i = true) :
    ((List.range n).filter p).eraseIdx r =
      (List.range n).filter (fun i => !(i == r) && p i) := by
  have hsplit : List.range n = List.range' 0 (r + 1) ++ List.range' (r + 1) (n - (r + 1)) := by
    rw [List.range_eq_range']
    have h1 := List.range'_append_1 0 (r + 1) (n - (r + 1))
    rw [Nat.zero_add] at h1
    have h2 : n - (r + 1) + (r + 1) = n := by omega
    rw [h2] at h1
    exact h1.symm
  have hA : (List.range' 0 (r + 1)).filter p = List.range' 0 (r + 1) := by
    rw [List.filter_eq_self]
    intro a ha
    rw [List.mem_range'_1] at ha
    exact hp a (by omega)
  have hA2 : List.range' 0 (r + 1) = List.range' 0 r ++ [r] := by
    rw [← List.range_eq_range', ← List.range_eq_range', List.range_succ]
  rw [hsplit, List.filter_append, hA]
  rw [List.eraseIdx_append_of_lt_length (by simp)]
  have hAerase : (List.range' 0 (r + 1)).eraseIdx r = List.range' 0 r := by
    rw [hA2, List.eraseIdx_append_of_length_le (by simp)]
    simp
  rw [hAerase]
  have hA3 : (List.range' 0 (r + 1)).filter (fun i => !(i == r) && p i) = List.range' 0 r := by
    rw [hA2, List.filter_append]
    have e1 : (List.range' 0 r).filter (fun i => !(i == r) && p i) = List.range' 0 r := by
      rw [List.filter_eq_self]
      intro a ha
      rw [List.mem_range'_1] at ha
      have hne : a ≠ r := by omega
      simp [hne, hp a (by omega)]
    have e2 : ([r] : List Nat).filter (fun i => !(i == r) && p i) = [] := by
      simp
    rw [e1, e2, List.append_nil]
  have hB : (List.range' (r + 1) (n - (r + 1))).filter (fun i => !(i == r) && p i) =
      (List.range' (r + 1) (n - (r + 1))).filter p := by
    refine List.filter_congr ?_
    intro a ha
    rw [List.mem_range'_1] at ha
    have hne : a ≠ r := by omega
    simp [hne]
  rw [List.filter_append, hA3, hB]

/-- One step of the kept-index description: erasing position `r` from
the survivors of a batch `rest` whose indices all exceed `r`. -/
theorem kept_step (n r : Nat) (rest : List Nat) (hrn : r < n)
    (hgt : ∀ x ∈ rest, r < x) :
    (keptIdx n rest).eraseIdx r = keptIdx n (r :: rest) := by
  unfold keptIdx
  rw [filter_range_eraseIdx n r _ hrn]
  · have he : (fun i => !(i == r) && !rest.contains i) =
        (fun i => !((r :: rest).contains i)) := by
      funext i
      simp only [List.contains_cons, Bool.not_or]
    rw [he]
  · intro i hi
    have hnm : ¬ i ∈ rest := fun hmem => absurd (hgt i hmem) (by omega)
    simp [hnm]

/-- One step of the bond description: filtering and shifting for the
removal of index `r` after a batch `rest` of larger indices. -/
theorem bonds_step (bonds : List (Nat × Nat)) (rest : List Nat) (r : Nat)
    (hnd : rest.Nodup) (hgt : ∀ x ∈ rest, r < x) :
    (((bonds.filter (fun b => !rest.contains b.1 && !rest.contains b.2)).map
        (fun b => (newIdx rest b.1, newIdx rest b.2))).filter
        (fun b => !(b.1 == r) && !(b.2 == r))).map
        (fun b => (shiftIdx r b.1, shiftIdx r b.2)) =
      (bonds.filter (fun b => !(r :: rest).contains b.1 && !(r :: rest).contains b.2)).map
        (fun b => (newIdx (r :: rest) b.1, newIdx (r :: rest) b.2)) := by
  induction bonds with
  | nil => rfl
  | cons b t ih =>
    simp only [List.filter_cons]
    by_cases h1 : b.1 ∈ rest
    · have hP1 : (!rest.contains b.1 && !rest.contains b.2) = false := by
        simp [h1]
      have hP2 : (!(r :: rest).contains b.1 && !(r :: rest).contains b.2) = false := by
        simp [List.mem_cons_of_mem r h1]
      rw [hP1, hP2]
      rw [if_neg (by simp), if_neg (by simp)]
      exact ih
    · by_cases h2 : b.2 ∈ rest
      · have hP1 : (!rest.contains b.1 && !rest.contains b.2) = false := by
          simp [h2]
        have hP2 : (!(r :: rest).contains b.1 && !(r :: rest).contains b.2) = false := by
          simp [List.mem_cons_of_mem r h2]
        rw [hP1, hP2]
        rw [if_neg (by simp), if_neg (by simp)]
        exact ih
      · have hP1 : (!rest.contains b.1 && !rest.contains b.2) = true := by
          simp [h1, h2]
        rw [hP1, if_pos rfl, List.map_cons, List.filter_cons]
        by_cases hr1 : b.1 = r
        · have hn1 : newIdx rest b.1 = r := by
            rw [hr1]
            exact newIdx_self_of_gt rest r hgt
          have hQ : (!((newIdx rest b.1, newIdx rest b.2).1 == r) &&
              !((newIdx rest b.1, newIdx rest b.2).2 == r)) = false := by
            simp [hn1]
          have hP2 : (!(r :: rest).contains b.1 && !(r :: rest).contains b.2) = false := by
            have : b.1 ∈ r :: rest := by
              rw [hr1]
              exact List.mem_cons_self r rest
            simp [this]
          rw [hQ, hP2]
          rw [if_neg (by simp), if_neg (by simp)]
          exact ih
        · by_cases hr2 : b.2 = r
          · have hn2 : newIdx rest b.2 = r := by
              rw [hr2]
              exact newIdx_self_of_gt rest r hgt
            have hQ : (!((newIdx rest b.1, newIdx rest b.2).1 == r) &&
                !((newIdx rest b.1, newIdx rest b.2).2 == r)) = false := by
              simp [hn2]
            have hP2 : (!(r :: rest).contains b.1 && !(r :: rest).contains b.2) = false := by
              have : b.2 ∈ r :: rest := by
                rw [hr2]
                exact List.mem_cons_self r rest
              simp [this]
            rw [hQ, hP2]
            rw [if_neg (by simp), if_neg (by simp)]
            exact ih
          · have hn1 : newIdx rest b.1 ≠ r := fun he =>
              hr1 ((newIdx_eq_iff rest r b.1 hnd hgt h1).mp he)
            have hn2 : newIdx rest b.2 ≠ r := fun he =>
              hr2 ((newIdx_eq_iff rest r b.2 hnd hgt h2).mp he)
            have hQ : (!((newIdx rest b.1, newIdx rest b.2).1 == r) &&
                !((newIdx rest b.1, newIdx rest b.2).2 == r)) = true := by
              simp [hn1, hn2]
            have hm1 : ¬ b.1 ∈ r :: rest := by
              intro hc
              rcases List.mem_cons.mp hc with hc | hc
              · exact hr1 hc
              · exact h1 hc
            have hm2 : ¬ b.2 ∈ r :: rest := by
              intro hc
              rcases List.mem_cons.mp hc with hc | hc
              · exact hr2 hc
              · exact h2 hc
            have hP2 : (!(r :: rest).contains b.1 && !(r :: rest).contains b.2) = true := by
              simp [hm1, hm2]
            have hs1 : shiftIdx r (newIdx rest b.1) = newIdx (r :: rest) b.1 :=
              shift_newIdx rest r b.1 hnd hgt hr1
            have hs2 : shiftIdx r (newIdx rest b.2) = newIdx (r :: rest) b.2 :=
              shift_newIdx rest r b.2 hnd hgt hr2
            rw [hQ, hP2, if_pos rfl, if_pos rfl, List.map_cons, List.map_cons]
            rw [ih]
            refine congrArg (· :: _) ?_
            show (shiftIdx r (newIdx rest b.1), shiftIdx r (newIdx rest b.2)) = _
            rw [hs1, hs2]

/-- Removal of a strictly ascending batch of in-range atom indices,
described against the original molecule: surviving atoms are those at
unremoved indices, surviving bonds are those not incident to a removed
index, with endpoints renumbered by `newIdx`; properties are kept. -/
theorem removeRun_spec (ids : List Nat) (m : Mol) (hp : ids.Pairwise (· < ·))
    (hlt : ∀ i ∈ ids, i < m.atoms.length) :
    ids.reverse.foldl removeAtom m =
      { atoms := (keptIdx m.atoms.length ids).map (fun i => m.atoms.getD i defaultAtom)
        bonds := (m.bonds.filter (fun b => !ids.contains b.1 && !ids.contains b.2)).map
          (fun b => (newIdx ids b.1, newIdx ids b.2))
        props := m.props } := by
  rw [List.foldl_reverse]
  induction ids with
  | nil =>
    simp only [List.foldr_nil, keptIdx, newIdx, List.contains_nil, Bool.not_false,
      Bool.and_self, List.countP_nil, Nat.sub_zero]
    have e1 : (List.range m.atoms.length).filter (fun _ => true) = List.range m.atoms.length := by
      rw [List.filter_eq_self]
      intro a _
      rfl
    have e2 : m.bonds.filter (fun _ => true) = m.bonds := by
      rw [List.filter_eq_self]
      intro a _
      rfl
    rw [e1, map_getD_range m.atoms defaultAtom, e2]
    have e3 : m.bonds.map (fun b => (b.1, b.2)) = m.bonds := by
      simp
    rw [e3]
  | cons r rest ih =>
    have hgt : ∀ x ∈ rest, r < x := (List.pairwise_cons.mp hp).1
    have hprest : rest.Pairwise (· < ·) := (List.pairwise_cons.mp hp).2
    have hnd : rest.Nodup := hprest.imp Nat.ne_of_lt
    have hltrest : ∀ i ∈ rest, i < m.atoms.length := fun i hi =>
      hlt i (List.mem_cons_of_mem r hi)
    have hrn : r < m.atoms.length := hlt r (List.mem_cons_self r rest)
    rw [List.foldr_cons, ih hprest hltrest]
    show removeAtom _ r = _
    unfold removeAtom
    dsimp only
    rw [eraseIdx_map, kept_step m.atoms.length r rest hrn hgt,
      bonds_step m.bonds rest r hnd hgt]

theorem saltTargets_pairwise (m : Mol) : (saltTargets m).Pairwise (· < ·) :=
  List.Pairwise.filter _ (List.pairwise_lt_range _)

theorem saltTargets_lt (m : Mol) : ∀ i ∈ saltTargets m, i < m.atoms.length := fun i hi =>
  List.mem_range.mp (List.mem_filter.mp hi).1

theorem remove_salt_metals_eq_fold (m : Mol) :
    remove_salt_metals m = (saltTargets m).reverse.foldl removeAtom m := by
  unfold remove_salt_metals
  by_cases h : (saltTargets m).isEmpty
  · rw [if_pos h]
    have he : saltTargets m = [] := List.isEmpty_iff.mp h
    rw [he]
    rfl
  · rw [if_neg h]

/-- The full extensional description of `remove_salt_metals`. -/
theorem remove_salt_metals_spec (m : Mol) :
    remove_salt_metals m =
      { atoms := (keptIdx m.atoms.length (saltTargets m)).map
          (fun i => m.atoms.getD i defaultAtom)
        bonds := (m.bonds.filter
            (fun b => !(saltTargets m).contains b.1 && !(saltTargets m).contains b.2)).map
          (fun b => (newIdx (saltTargets m) b.1, newIdx (saltTargets m) b.2))
        props := m.props } := by
  rw [remove_salt_metals_eq_fold]
  exact removeRun_spec _ m (saltTargets_pairwise m) (saltTargets_lt m)

theorem saltCond_of_ge (m : Mol) (x : Nat) (hx : m.atoms.length ≤ x) :
    saltCond m x = false := by
  unfold saltCond
  have hD : m.atoms.getD x defaultAtom = defaultAtom := by
    rw [List.getD_eq_getElem?_getD, List.getElem?_eq_none hx]
    rfl
  rw [hD]
  have h0 : decide (defaultAtom.num ∈ salt_metals) = false := by decide
  rw [h0, Bool.false_and]

theorem contains_saltTargets (m : Mol) (x : Nat) :
    (saltTargets m).contains x = saltCond m x := by
  by_cases hx : x < m.atoms.length
  · by_cases hc : saltCond m x = true
    · have hmem : x ∈ saltTargets m := List.mem_filter.mpr ⟨List.mem_range.mpr hx, hc⟩
      simp [hmem, hc]
    · have hcf : saltCond m x = false := by
        cases hb : saltCond m x
        · rfl
        · exact absurd hb hc
      have hnm : ¬ x ∈ saltTargets m := fun hmem => hc (List.mem_filter.mp hmem).2
      simp [hnm, hcf]
  · have hnm : ¬ x ∈ saltTargets m := fun hmem => hx (saltTargets_lt m x hmem)
    have hcf : saltCond m x = false := saltCond_of_ge m x (Nat.le_of_not_lt hx)
    simp [hnm, hcf]

theorem keptIdx_saltTargets (m : Mol) :
    keptIdx m.atoms.length (saltTargets m) =
      (List.range m.atoms.length).filter (fun i => !(saltCond m i)) := by
  unfold keptIdx
  refine List.filter_congr ?_
  intro i _
  rw [contains_saltTargets]

theorem countP_bool_not {α : Type} (l : List α) (p : α → Bool) :
    l.countP (fun a => !(p a)) = l.length - l.countP p := by
  induction l with
  | nil => rfl
  | cons a t ih =>
    have hle := List.countP_le_length (p := p) (l := t)
    by_cases hp : p a = true <;>
      simp [List.countP_cons, hp, ih, List.length_cons] <;> omega

/-- Position of an element inside `filter p (range n)`: the number of
`p`-positive indices strictly below it equals its position. -/
theorem idx_count (n : Nat) (p : Nat → Bool) (i : Nat)
    (h : i < ((List.range n).filter p).length) :
    ((List.range (((List.range n).filter p)[i])).filter p).length = i := by
  induction n with
  | zero => simp at h
  | succ n ih =>
    by_cases hpn : p n = true
    · have hr : (List.range (n + 1)).filter p = (List.range n).filter p ++ [n] := by
        rw [List.range_succ, List.filter_append]
        simp [hpn]
      rw [List.getElem_of_eq hr h]
      rw [hr] at h
      rcases Nat.lt_or_ge i ((List.range n).filter p).length with hi | hi
      · rw [List.getElem_append_left hi]
        exact ih hi
      · have hlen : i < ((List.range n).filter p).length + 1 := by
          simpa using h
        have hieq : i = ((List.range n).filter p).length := by omega
        rw [List.getElem_append_right hi]
        have hidx : i - ((List.range n).filter p).length = 0 := by omega
        simp only [hidx, List.getElem_cons_zero]
        omega
    · have hr : (List.range (n + 1)).filter p = (List.range n).filter p := by
        rw [List.range_succ, List.filter_append]
        simp [hpn]
      rw [List.getElem_of_eq hr h]
      rw [hr] at h
      exact ih h

theorem countP_range_restrict (n j : Nat) (c : Nat → Bool) (hj : j ≤ n) :
    (List.range n).countP (fun x => decide (x < j) && c x) = (List.range j).countP c := by
  have hsplit : List.range n = List.range' 0 j ++ List.range' j (n - j) := by
    rw [List.range_eq_range']
    have h1 := List.range'_append_1 0 j (n - j)
    rw [Nat.zero_add] at h1
    have h2 : n - j + j = n := by omega
    rw [h2] at h1
    exact h1.symm
  rw [hsplit, List.countP_append]
  have e1 : (List.range' 0 j).countP (fun x => decide (x < j) && c x) =
      (List.range' 0 j).countP c := by
    refine List.countP_congr ?_
    intro x hx
    rw [List.mem_range'_1] at hx
    have : x < j := by omega
    simp [this]
  have e2 : (List.range' j (n - j)).countP (fun x => decide (x < j) && c x) = 0 := by
    rw [List.countP_eq_zero]
    intro x hx
    rw [List.mem_range'_1] at hx
    have : ¬ x < j := by omega
    simp [this]
  rw [e1, e2, ← List.range_eq_range']
  omega

/-- `newIdx` of the candidate list agrees with counting the kept indices
below `j`. -/
theorem newIdx_filter_range (n j : Nat) (c : Nat → Bool) (hj : j < n) :
    newIdx ((List.range n).filter c) j =
      j - (List.range j).countP c := by
  unfold newIdx
  rw [List.countP_filter, countP_range_restrict n j c (Nat.le_of_lt hj)]

/-- The kept index sitting at position `i` of the survivor list is sent
back to position `i` by the renumbering `newIdx`. -/
theorem newIdx_at_kept (n : Nat) (c : Nat → Bool) (i : Nat)
    (h : i < ((List.range n).filter (fun x => !(c x))).length) :
    newIdx ((List.range n).filter c)
        (((List.range n).filter (fun x => !(c x)))[i]) = i := by
  set j := ((List.range n).filter (fun x => !(c x)))[i] with hjdef
  have hjmem : j ∈ (List.range n).filter (fun x => !(c x)) := by
    rw [hjdef]
    exact List.getElem_mem h
  have hjn : j < n := List.mem_range.mp (List.mem_filter.mp hjmem).1
  have hjc : c j = false := by
    have := (List.mem_filter.mp hjmem).2
    cases hb : c j
    · rfl
    · rw [hb] at this
      simp at this
  rw [newIdx_filter_range n j c hjn]
  have hcount := idx_count n (fun x => !(c x)) i h
  rw [← hjdef] at hcount
  rw [← List.countP_eq_length_filter, countP_bool_not, List.length_range] at hcount
  exact hcount

theorem saltCond_parts (m : Mol) (x : Nat) (h : saltCond m x = true) :
    (m.atoms.getD x defaultAtom).num ∈ salt_metals ∧ degree m x ≤ 1 := by
  unfold saltCond at h
  simp only [Bool.and_eq_true, decide_eq_true_eq] at h
  exact h

theorem degree_two_of_salt_unflagged (m : Mol) (x : Nat)
    (hmem : (m.atoms.getD x defaultAtom).num ∈ salt_metals)
    (hc : saltCond m x = false) : 2 ≤ degree m x := by
  by_cases hd : degree m x ≤ 1
  · exfalso
    have : saltCond m x = true := by
      unfold saltCond
      simp only [Bool.and_eq_true, decide_eq_true_eq]
      exact ⟨hmem, hd⟩
    rw [this] at hc
    cases hc
  · omega

theorem not_mem_saltTargets (m : Mol) (x : Nat) (hc : saltCond m x = false) :
    ¬ x ∈ saltTargets m := by
  intro hm
  have h2 := (List.mem_filter.mp hm).2
  rw [hc] at h2
  cases h2

/-- After one salt-stripping pass with no bond joining two salt metals,
no atom of the result satisfies the collection condition any more. -/
theorem saltTargets_strip_nil (m : Mol)
    (H : ∀ b ∈ m.bonds, ¬((m.atoms.getD b.1 defaultAtom).num ∈ salt_metals ∧
        (m.atoms.getD b.2 defaultAtom).num ∈ salt_metals)) :
    saltTargets (remove_salt_metals m) = [] := by
  have hM := remove_salt_metals_spec m
  have hnd : (saltTargets m).Nodup := (saltTargets_pairwise m).imp Nat.ne_of_lt
  have hqe : (fun b : Nat × Nat =>
        !(saltTargets m).contains b.1 && !(saltTargets m).contains b.2) =
      (fun b : Nat × Nat => !(saltCond m b.1) && !(saltCond m b.2)) := by
    funext b
    rw [contains_saltTargets, contains_saltTargets]
  have hatoms : (remove_salt_metals m).atoms =
      ((List.range m.atoms.length).filter (fun x => !(saltCond m x))).map
        (fun i => m.atoms.getD i defaultAtom) := by
    rw [hM, ← keptIdx_saltTargets m]
  have hbonds : (remove_salt_metals m).bonds =
      (m.bonds.filter (fun b => !(saltCond m b.1) && !(saltCond m b.2))).map
        (fun b => (newIdx (saltTargets m) b.1, newIdx (saltTargets m) b.2)) := by
    rw [hM, hqe]
  unfold saltTargets
  rw [List.filter_eq_nil_iff]
  intro i hiRange
  rw [List.mem_range] at hiRange
  intro hcond
  have hi : i < ((List.range m.atoms.length).filter (fun x => !(saltCond m x))).length := by
    rw [hatoms, List.length_map] at hiRange
    exact hiRange
  set ks := (List.range m.atoms.length).filter (fun x => !(saltCond m x)) with hksdef
  set j := ks[i] with hjdef
  have hjmem : j ∈ ks := by
    rw [hjdef]
    exact List.getElem_mem hi
  have hjn : j < m.atoms.length := List.mem_range.mp (List.mem_filter.mp hjmem).1
  have hjc : saltCond m j = false := by
    have h2 := (List.mem_filter.mp hjmem).2
    cases hb : saltCond m j
    · rfl
    · rw [hb] at h2
      cases h2
  have hatom : (remove_salt_metals m).atoms.getD i defaultAtom = m.atoms.getD j defaultAtom := by
    rw [hatoms, List.getD_eq_getElem?_getD,
      List.getElem?_eq_getElem (by rw [List.length_map]; exact hi)]
    rw [Option.getD_some, List.getElem_map]
  have hni : newIdx (saltTargets m) j = i := by
    have := newIdx_at_kept m.atoms.length (saltCond m) i hi
    exact this
  -- the interesting case: the surviving atom at position i is a salt metal
  have hnum : (m.atoms.getD j defaultAtom).num ∈ salt_metals := by
    have hparts := saltCond_parts (remove_salt_metals m) i hcond
    rw [hatom] at hparts
    exact hparts.1
  have hdeg2 : 2 ≤ degree m j := degree_two_of_salt_unflagged m j hnum hjc
  -- degrees are preserved for surviving salt atoms
  have hdegeq : degree (remove_salt_metals m) i = degree m j := by
    unfold degree
    rw [hbonds]
    rw [← List.countP_eq_length_filter, ← List.countP_eq_length_filter]
    rw [List.countP_map, List.countP_filter]
    refine List.countP_congr ?_
    intro b hb
    simp only [Function.comp, Bool.and_eq_true, Bool.or_eq_true, Bool.not_eq_true',
      beq_iff_eq]
    constructor
    · rintro ⟨hor, hq1, hq2⟩
      rcases hor with he | he
      · left
        have hb1 : ¬ b.1 ∈ saltTargets m := not_mem_saltTargets m b.1 hq1
        have hjm : ¬ j ∈ saltTargets m := not_mem_saltTargets m j hjc
        rcases Nat.lt_trichotomy b.1 j with hlt | heq | hlt
        · exfalso
          have := newIdx_lt_newIdx (saltTargets m) hnd b.1 j hb1 hlt
          rw [he, hni] at this
          omega
        · exact heq
        · exfalso
          have := newIdx_lt_newIdx (saltTargets m) hnd j b.1 hjm hlt
          rw [he, hni] at this
          omega
      · right
        have hb2 : ¬ b.2 ∈ saltTargets m := not_mem_saltTargets m b.2 hq2
        have hjm : ¬ j ∈ saltTargets m := not_mem_saltTargets m j hjc
        rcases Nat.lt_trichotomy b.2 j with hlt | heq | hlt
        · exfalso
          have := newIdx_lt_newIdx (saltTargets m) hnd b.2 j hb2 hlt
          rw [he, hni] at this
          omega
        · exact heq
        · exfalso
          have := newIdx_lt_newIdx (saltTargets m) hnd j b.2 hjm hlt
          rw [he, hni] at this
          omega
    · intro hor
      rcases hor with he | he
      · have hq1 : saltCond m b.1 = false := by
          rw [he]
          exact hjc
        have hq2 : saltCond m b.2 = false := by
          cases hb2 : saltCond m b.2
          · rfl
          · exfalso
            have hmem2 := (saltCond_parts m b.2 hb2).1
            have hmem1 : (m.atoms.getD b.1 defaultAtom).num ∈ salt_metals := by
              rw [he]
              exact hnum
            exact H b hb ⟨hmem1, hmem2⟩
        refine ⟨Or.inl ?_, hq1, hq2⟩
        rw [he, hni]
      · have hq2 : saltCond m b.2 = false := by
          rw [he]
          exact hjc
        have hq1 : saltCond m b.1 = false := by
          cases hb1 : saltCond m b.1
          · rfl
          · exfalso
            have hmem1 := (saltCond_parts m b.1 hb1).1
            have hmem2 : (m.atoms.getD b.2 defaultAtom).num ∈ salt_metals := by
              rw [he]
              exact hnum
            exact H b hb ⟨hmem1, hmem2⟩
        refine ⟨Or.inr ?_, hq1, hq2⟩
        rw [he, hni]
  have hparts := saltCond_parts (remove_salt_metals m) i hcond
  rw [hdegeq] at hparts
  omega

theorem remove_salt_metals_of_nil (M : Mol) (h : saltTargets M = []) :
    remove_salt_metals M = M := by
  rw [remove_salt_metals_eq_fold, h]
  rfl

/-- C2: `remove_salt_metals` removes exactly the atoms whose atomic
number is a salt metal and whose degree is at most 1 (`saltCond`, read
on the input graph): the surviving atoms are those at the unflagged
indices, in order.  The collected index list, processed back to front,
is strictly descending, and when no atom matches the input graph is
returned unchanged. -/
theorem remove_salt_metals_exact (m : Mol) :
    (remove_salt_metals m).atoms =
      ((List.range m.atoms.length).filter (fun i => !(saltCond m i))).map
        (fun i => m.atoms.getD i defaultAtom) ∧
    (saltTargets m).reverse.Pairwise (fun a b => b < a) ∧
    (saltTargets m = [] → remove_salt_metals m = m) := by
  refine ⟨?_, ?_, ?_⟩
  · have h1 : (remove_salt_metals m).atoms =
        (keptIdx m.atoms.length (saltTargets m)).map (fun i => m.atoms.getD i defaultAtom) := by
      rw [remove_salt_metals_spec m]
    rw [h1, keptIdx_saltTargets]
  · rw [List.pairwise_reverse]
    exact saltTargets_pairwise m
  · exact remove_salt_metals_of_nil m

/-- Witness for C2 at a concrete graph: water contains no salt metal,
so the collected list is empty and the graph is returned unchanged. -/
theorem remove_salt_metals_exact_witness :
    saltTargets waterMol = [] ∧ remove_salt_metals waterMol = waterMol :=
  ⟨by decide, (remove_salt_metals_exact waterMol).2.2 (by decide)⟩

/-- C6 counterexample: stripping is not idempotent on every graph.  In
K–Na–O the potassium (degree 1) is removed by the first pass, the sodium
drops to degree 1, and only the second pass removes it. -/
theorem strip_not_idempotent_counterexample :
    remove_salt_metals (remove_salt_metals kNaOMol) ≠ remove_salt_metals kNaOMol := by
  decide

/-- C6 (amended): stripping salt metals twice yields the same graph as
stripping once, provided no bond of the input joins two salt-metal
atoms (the counterexample forces exactly this proviso: a removed
degree-1 salt metal bonded to another salt metal lowers that metal's
degree, creating a new target for the second pass). -/
theorem strip_idempotent_of_no_salt_salt_bond (m : Mol)
    (H : ∀ b ∈ m.bonds, ¬((m.atoms.getD b.1 defaultAtom).num ∈ salt_metals ∧
        (m.atoms.getD b.2 defaultAtom).num ∈ salt_metals)) :
    remove_salt_metals (remove_salt_metals m) = remove_salt_metals m :=
  remove_salt_metals_of_nil (remove_salt_metals m) (saltTargets_strip_nil m H)

/-- Witness for the amended C6 at a concrete graph: Na–O–C has no bond
between two salt metals, and stripping it twice equals stripping once. -/
theorem strip_idempotent_witness :
    (∀ b ∈ naOCMol.bonds, ¬((naOCMol.atoms.getD b.1 defaultAtom).num ∈ salt_metals ∧
        (naOCMol.atoms.getD b.2 defaultAtom).num ∈ salt_metals)) ∧
    remove_salt_metals (remove_salt_metals naOCMol) = remove_salt_metals naOCMol :=
  ⟨by decide, strip_idempotent_of_no_salt_salt_bond naOCMol (by decide)⟩

theorem contains_filter_range (n : Nat) (q : Nat → Bool) (x : Nat) (hx : x < n) :
    ((List.range n).filter q).contains x = q x := by
  by_cases hc : q x = true
  · have hmem : x ∈ (List.range n).filter q :=
      List.mem_filter.mpr ⟨List.mem_range.mpr hx, hc⟩
    simp [hmem, hc]
  · have hcf : q x = false := by
      cases hb : q x
      · rfl
      · exact absurd hb hc
    have hnm : ¬ x ∈ (List.range n).filter q := fun hmem => hc (List.mem_filter.mp hmem).2
    simp [hnm, hcf]

theorem eraseRun_spec {α : Type} (ids : List Nat) (l : List α) (d : α)
    (hp : ids.Pairwise (· < ·)) (hlt : ∀ i ∈ ids, i < l.length) :
    ids.reverse.foldl (fun acc i => acc.eraseIdx i) l =
      (keptIdx l.length ids).map (fun i => l.getD i d) := by
  rw [List.foldl_reverse]
  induction ids with
  | nil =>
    simp only [List.foldr_nil, keptIdx, List.contains_nil, Bool.not_false]
    have e1 : (List.range l.length).filter (fun _ => true) = List.range l.length := by
      rw [List.filter_eq_self]
      intro a _
      rfl
    rw [e1, map_getD_range l d]
  | cons r rest ih =>
    have hgt : ∀ x ∈ rest, r < x := (List.pairwise_cons.mp hp).1
    have hprest : rest.Pairwise (· < ·) := (List.pairwise_cons.mp hp).2
    have hltrest : ∀ i ∈ rest, i < l.length := fun i hi => hlt i (List.mem_cons_of_mem r hi)
    have hrn : r < l.length := hlt r (List.mem_cons_self r rest)
    rw [List.foldr_cons, ih hprest hltrest]
    rw [eraseIdx_map, kept_step l.length r rest hrn hgt]

/-- The flag-then-pop pattern equals a plain filter on the negated
predicate. -/
theorem removeFlagged_eq_filter (l : List Mol) (p : Mol → Bool) :
    removeFlagged l p = l.filter (fun c => !(p c)) := by
  have hfold : removeFlagged l p =
      ((List.range l.length).filter (fun i => p (l.getD i defaultMol))).reverse.foldl
        (fun acc i => acc.eraseIdx i) l := by
    unfold removeFlagged
    by_cases h : ((List.range l.length).filter (fun i => p (l.getD i defaultMol))).isEmpty
    · rw [if_pos h]
      have he := List.isEmpty_iff.mp h
      rw [he]
      rfl
    · rw [if_neg h]
  rw [hfold, eraseRun_spec _ l defaultMol (List.Pairwise.filter _ (List.pairwise_lt_range _))
    (fun i hi => List.mem_range.mp (List.mem_filter.mp hi).1)]
  have hk : keptIdx l.length ((List.range l.length).filter (fun i => p (l.getD i defaultMol))) =
      (List.range l.length).filter (fun i => !(p (l.getD i defaultMol))) := by
    unfold keptIdx
    refine List.filter_congr ?_
    intro i hi
    rw [contains_filter_range l.length _ i (List.mem_range.mp hi)]
  rw [hk]
  exact filter_range_map_getD l (fun c => !(p c)) defaultMol

/-- C7: the survivors of the two sequential filtering passes of
`standardise` (inorganic first, then metal, the second pass re-evaluated
on the survivors of the first) are the same as removing both flag sets
computed against the pre-removal list, and the same with the two passes
swapped: the order of inorganic and metal filtering does not affect the
final fragment set. -/
theorem filtering_order_irrelevant (l : List Mol) :
    removeFlagged (removeFlagged l is_inorganic) contains_metal = survivingFragments l ∧
    removeFlagged (removeFlagged l contains_metal) is_inorganic = survivingFragments l := by
  constructor
  · rw [removeFlagged_eq_filter, removeFlagged_eq_filter, List.filter_filter]
    unfold survivingFragments
    refine List.filter_congr ?_
    intro c _
    rw [Bool.and_comm]
  · rw [removeFlagged_eq_filter, removeFlagged_eq_filter, List.filter_filter]
    unfold survivingFragments
    exact rfl

theorem silaneLoop_spec (l : List Atom) : ∀ (fc fs : Bool),
    silaneLoop l fc fs =
      (fc || l.any (fun a => a.num == 6), fs || l.any (fun a => a.num == 14)) := by
  induction l with
  | nil =>
    intro fc fs
    simp [silaneLoop]
  | cons a t ih =>
    intro fc fs
    unfold silaneLoop
    rw [ih]
    by_cases h6 : (a.num == 6) = true <;> by_cases h14 : (a.num == 14) = true <;>
      simp [h6, h14]

/-- C9: `is_silane` is true exactly when the fragment contains at least
one carbon atom and at least one silicon atom; with carbon only, silicon
only, or neither, it is false. -/
theorem is_silane_iff (m : Mol) :
    is_silane m = true ↔
      ((∃ a ∈ m.atoms, a.num = 6) ∧ (∃ a ∈ m.atoms, a.num = 14)) := by
  unfold is_silane
  rw [silaneLoop_spec]
  simp [List.any_eq_true]

theorem selLoop_go (l : List Mol) (t : List Mol) :
    ∀ (i largest num : Nat),
      l.drop i = t → i ≤ l.length → largest < i →
      GetNumHeavyAtoms (l.getD largest defaultMol) = num →
      (∀ j, j < i → GetNumHeavyAtoms (l.getD j defaultMol) ≤ num) →
      (∀ j, j < largest → GetNumHeavyAtoms (l.getD j defaultMol) < num) →
      selLoop t i largest num < l.length ∧
      (∀ j, j < l.length →
        GetNumHeavyAtoms (l.getD j defaultMol) ≤
          GetNumHeavyAtoms (l.getD (selLoop t i largest num) defaultMol)) ∧
      (∀ j, j < selLoop t i largest num →
        GetNumHeavyAtoms (l.getD j defaultMol) <
          GetNumHeavyAtoms (l.getD (selLoop t i largest num) defaultMol)) := by
  induction t with
  | nil =>
    intro i largest num hdrop hile hlarge hnum hub hstrict
    have hlen : l.length ≤ i := List.drop_eq_nil_iff.mp hdrop
    unfold selLoop
    refine ⟨by omega, ?_, ?_⟩
    · intro j hj
      rw [hnum]
      exact hub j (by omega)
    · intro j hj
      rw [hnum]
      exact hstrict j hj
  | cons c t2 ih =>
    intro i largest num hdrop hile hlarge hnum hub hstrict
    have hlt : i < l.length := by
      by_contra hge
      have hdn : l.drop i = [] := List.drop_eq_nil_iff.mpr (by omega)
      rw [hdn] at hdrop
      cases hdrop
    have hde := List.drop_eq_getElem_cons hlt (l := l)
    rw [hde] at hdrop
    have hc : l[i] = c := (List.cons.injEq _ _ _ _ ▸ hdrop).1
    have hdrop2 : l.drop (i + 1) = t2 := (List.cons.injEq _ _ _ _ ▸ hdrop).2
    have hgc : l.getD i defaultMol = c := by
      rw [List.getD_eq_getElem?_getD, List.getElem?_eq_getElem hlt, Option.getD_some, hc]
    unfold selLoop
    by_cases hcnum : GetNumHeavyAtoms c > num
    · rw [if_pos hcnum]
      refine ih (i + 1) i (GetNumHeavyAtoms c) hdrop2 (by omega) (by omega) ?_ ?_ ?_
      · rw [hgc]
      · intro j hj
        rcases Nat.lt_or_ge j i with hji | hji
        · exact Nat.le_trans (hub j hji) (Nat.le_of_lt hcnum)
        · have hje : j = i := by omega
          rw [hje, hgc]
      · intro j hj
        exact Nat.lt_of_le_of_lt (hub j hj) hcnum
    · rw [if_neg hcnum]
      refine ih (i + 1) largest num hdrop2 (by omega) (by omega) hnum ?_ hstrict
      intro j hj
      rcases Nat.lt_or_ge j i with hji | hji
      · exact hub j hji
      · have hje : j = i := by omega
        rw [hje, hgc]
        omega

theorem largestIdx_spec (l : List Mol) (h : l ≠ []) :
    largestIdx l < l.length ∧
    (∀ j, j < l.length →
      GetNumHeavyAtoms (l.getD j defaultMol) ≤
        GetNumHeavyAtoms (l.getD (largestIdx l) defaultMol)) ∧
    (∀ j, j < largestIdx l →
      GetNumHeavyAtoms (l.getD j defaultMol) <
        GetNumHeavyAtoms (l.getD (largestIdx l) defaultMol)) := by
  cases l with
  | nil => exact absurd rfl h
  | cons c t =>
    have hstep : selLoop (c :: t) 0 0 0 =
        if GetNumHeavyAtoms c > 0 then selLoop t 1 0 (GetNumHeavyAtoms c)
        else selLoop t 1 0 0 := rfl
    unfold largestIdx
    rw [hstep]
    by_cases hc : GetNumHeavyAtoms c > 0
    · rw [if_pos hc]
      refine selLoop_go (c :: t) t 1 0 (GetNumHeavyAtoms c) rfl (by simp) (by omega) rfl
        ?_ ?_
      · intro j hj
        have hje : j = 0 := by omega
        rw [hje]
        exact Nat.le_refl _
      · intro j hj
        omega
    · rw [if_neg hc]
      have h0 : GetNumHeavyAtoms c = 0 := by omega
      refine selLoop_go (c :: t) t 1 0 0 rfl (by simp) (by omega) ?_ ?_ ?_
      · exact h0
      · intro j hj
        have hje : j = 0 := by omega
        rw [hje]
        show GetNumHeavyAtoms c ≤ 0
        omega
      · intro j hj
        omega

/-- C10: for every non-empty component list, the index computed by the
selection loop is in bounds and `get_largest_component` returns an
element of its input; inside `standardise` the call is guarded by
`comps.length > 1`, so the empty-list failure of `components[largest]`
is unreachable there. -/
theorem get_largest_component_safe (l : List Mol) (h : l ≠ []) :
    largestIdx l < l.length ∧ get_largest_component l ∈ l := by
  obtain ⟨h1, _, _⟩ := largestIdx_spec l h
  refine ⟨h1, ?_⟩
  unfold get_largest_component
  rw [List.getD_eq_getElem?_getD, List.getElem?_eq_getElem h1, Option.getD_some]
  exact List.getElem_mem h1

/-- Witness for C10 at a concrete non-empty list. -/
theorem get_largest_component_safe_witness :
    largestIdx [ironMol] < ([ironMol] : List Mol).length ∧
      get_largest_component [ironMol] ∈ ([ironMol] : List Mol) :=
  get_largest_component_safe [ironMol] (by decide)

/-- C1: with more than one component left, the selected component is the
one at the loop's chosen index, that index carries the greatest
heavy-atom count, and every earlier component has a strictly smaller
count — so on equal counts the selection never moves past the first
maximum. -/
theorem get_largest_component_first_max (l : List Mol) (h : 1 < l.length) :
    get_largest_component l = l.getD (largestIdx l) defaultMol ∧
    (∀ j, j < l.length →
      GetNumHeavyAtoms (l.getD j defaultMol) ≤
        GetNumHeavyAtoms (l.getD (largestIdx l) defaultMol)) ∧
    (∀ j, j < largestIdx l →
      GetNumHeavyAtoms (l.getD j defaultMol) <
        GetNumHeavyAtoms (l.getD (largestIdx l) defaultMol)) := by
  have hne : l ≠ [] := by
    intro he
    rw [he] at h
    simp at h
  obtain ⟨_, h2, h3⟩ := largestIdx_spec l hne
  exact ⟨rfl, h2, h3⟩

/-- Witness for C1: heavy-atom counts [4, 7, 7] select index 1, the
first component with count 7, never the second. -/
theorem get_largest_component_first_max_witness :
    largestIdx tieComponents = 1 ∧
      get_largest_component tieComponents =
        tieComponents.getD (largestIdx tieComponents) defaultMol :=
  ⟨by decide, (get_largest_component_first_max tieComponents (by decide)).1⟩

theorem rdcLoop_spec (C : Collaborators) (comps : List Mol) :
    ∀ (dict : List (String × Mol)),
      rdcLoop C comps dict =
        (neutraliseAll C comps).map
          (fun nl => dict ++ dedupPairs (keyOf C) nl (dict.map Prod.fst)) := by
  induction comps with
  | nil =>
    intro dict
    simp [rdcLoop, neutraliseAll, dedupPairs]
  | cons comp t ih =>
    intro dict
    cases hu : C.updatePropertyCache comp with
    | none =>
      have hs : neutraliseStep C comp = none := by
        unfold neutraliseStep
        rw [hu]
        rfl
      simp only [rdcLoop, neutraliseAll, hu, hs]
      rfl
    | some c1 =>
      cases hn : C.neutralise c1 with
      | none =>
        have hs : neutraliseStep C comp = none := by
          unfold neutraliseStep
          rw [hu]
          exact hn
        simp only [rdcLoop, neutraliseAll, hu, hn, hs]
        rfl
      | some c2 =>
        have hs : neutraliseStep C comp = some c2 := by
          unfold neutraliseStep
          rw [hu]
          exact hn
        simp only [rdcLoop, neutraliseAll, hu, hn, hs]
        by_cases hcont : ((dict.map Prod.fst).contains (keyOf C c2)) = true
        · rw [if_pos hcont, ih dict]
          cases hall : neutraliseAll C t with
          | none => rfl
          | some nl =>
            simp only [Option.map_some']
            refine congrArg _ ?_
            refine congrArg _ ?_
            rw [dedupPairs, if_pos hcont]
        · have hcf : ((dict.map Prod.fst).contains (keyOf C c2)) = false := by
            cases hb : (dict.map Prod.fst).contains (keyOf C c2)
            · rfl
            · exact absurd hb hcont
          rw [if_neg (by rw [hcf]; exact Bool.false_ne_true)]
          rw [ih (dict ++ [(keyOf C c2, c2)])]
          cases hall : neutraliseAll C t with
          | none => rfl
          | some nl =>
            simp only [Option.map_some']
            refine congrArg _ ?_
            rw [dedupPairs, if_neg (by rw [hcf]; exact Bool.false_ne_true)]
            rw [List.append_assoc]
            simp only [List.map_append, List.map_cons, List.map_nil, List.singleton_append]

theorem map_snd_dedupPairs (key : Mol → String) (nl : List Mol) :
    ∀ (seen : List String),
      (dedupPairs key nl seen).map Prod.snd = dedupFirst key nl seen := by
  induction nl with
  | nil =>
    intro seen
    rfl
  | cons c t ih =>
    intro seen
    unfold dedupPairs dedupFirst
    by_cases h : (seen.contains (key c)) = true
    · rw [if_pos h, if_pos h]
      exact ih seen
    · rw [if_neg h, if_neg h, List.map_cons]
      rw [ih (seen ++ [key c])]

/-- C3: in the multi-fragment path, `remove_duplicate_components`
neutralises every fragment (property-cache update then neutraliser,
failing as a whole if any fragment fails), derives each canonical key
`InchiToInchiKey(MolToInchi(..))`, and keeps exactly the first
neutralised fragment per distinct key in first-seen order; in
particular, two fragments with the same key after neutralisation — e.g.
differing only in a removable charge — collapse to the single first
survivor. -/
theorem remove_duplicate_components_spec :
    (∀ (C : Collaborators) (comps : List Mol),
      remove_duplicate_components C comps =
        (neutraliseAll C comps).map (fun nl => dedupFirst (keyOf C) nl [])) ∧
    (∀ (C : Collaborators) (f1 f2 n1 n2 : Mol),
      neutraliseStep C f1 = some n1 → neutraliseStep C f2 = some n2 →
      keyOf C n2 = keyOf C n1 →
      remove_duplicate_components C [f1, f2] = some [n1]) := by
  have hmain : ∀ (C : Collaborators) (comps : List Mol),
      remove_duplicate_components C comps =
        (neutraliseAll C comps).map (fun nl => dedupFirst (keyOf C) nl []) := by
    intro C comps
    unfold remove_duplicate_components
    rw [rdcLoop_spec C comps []]
    cases hall : neutraliseAll C comps with
    | none => rfl
    | some nl =>
      simp only [Option.map_some']
      refine congrArg _ ?_
      simp only [List.nil_append, List.map_nil]
      exact map_snd_dedupPairs (keyOf C) nl []
  refine ⟨hmain, ?_⟩
  intro C f1 f2 n1 n2 h1 h2 hk
  rw [hmain C [f1, f2]]
  have hall : neutraliseAll C [f1, f2] = some [n1, n2] := by
    unfold neutraliseAll
    rw [h1]
    unfold neutraliseAll
    rw [h2]
    rfl
  rw [hall]
  simp only [Option.map_some']
  refine congrArg _ ?_
  unfold dedupFirst
  rw [if_neg (by simp)]
  unfold dedupFirst
  have hcont : (([] ++ [keyOf C n1] : List String).contains (keyOf C n2)) = true := by
    rw [hk]
    simp
  rw [if_pos hcont]
  rfl

/-- Witness for C3: an oxygen anion and a neutral oxygen collapse to
one survivor under a charge-clearing neutraliser. -/
theorem remove_duplicate_components_spec_witness :
    remove_duplicate_components zeroChargeCollab [oMinusFrag, oFrag] = some [oFrag] :=
  remove_duplicate_components_spec.2 zeroChargeCollab oMinusFrag oFrag oFrag oFrag
    (by decide) (by decide) rfl

/-- C4: for an input with exactly one fragment after salt stripping, a
disallowed atom yields the metal rejection ("Molecule contains metal"),
and this check takes precedence over the inorganic check; a fragment
without carbon or silicon but with only allowed atoms yields the
inorganic rejection ("Molecule is inorganic"). -/
theorem single_fragment_rejections (C : Collaborators) (mol0 : Mol)
    (h1 : (GetMolFrags (remove_salt_metals mol0)).length = 1) :
    (contains_metal (remove_salt_metals mol0) = true →
      standardise C mol0 = (false, Sum.inr msgMetal)) ∧
    (contains_metal (remove_salt_metals mol0) = false →
      is_inorganic (remove_salt_metals mol0) = true →
      standardise C mol0 = (false, Sum.inr msgInorganic)) := by
  have hnot : ¬ ((GetMolFrags (remove_salt_metals mol0)).length > 1) := by omega
  constructor
  · intro hm
    simp only [standardise, selectStage]
    rw [if_neg hnot, if_pos hm]
  · intro hm hi
    simp only [standardise, selectStage]
    rw [if_neg hnot, if_neg (by rw [hm]; exact Bool.false_ne_true), if_pos hi]

/-- Witness for C4: the single elemental iron atom is rejected as
containing a metal (spec scenario C); a single water fragment is
rejected as inorganic. -/
theorem single_fragment_rejections_witness :
    standardise trivialCollab ironMol = (false, Sum.inr msgMetal) ∧
    standardise trivialCollab waterMol = (false, Sum.inr msgInorganic) :=
  ⟨(single_fragment_rejections trivialCollab ironMol (by decide)).1 (by decide),
    (single_fragment_rejections trivialCollab waterMol (by decide)).2 (by decide) (by decide)⟩

theorem selectStage_neut_error_iff (C : Collaborators) (mol0 : Mol) :
    selectStage C mol0 = Except.error msgNeutralise ↔
      (1 < (GetMolFrags (remove_salt_metals mol0)).length ∧
        remove_duplicate_components C (GetMolFrags (remove_salt_metals mol0)) = none) := by
  simp only [selectStage]
  by_cases hlen : (GetMolFrags (remove_salt_metals mol0)).length > 1
  · rw [if_pos hlen]
    cases hr : remove_duplicate_components C (GetMolFrags (remove_salt_metals mol0)) with
    | none =>
      simp [hlen]
    | some comps1 =>
      constructor
      · intro h
        exfalso
        dsimp only at h
        by_cases h3 : (removeFlagged (removeFlagged comps1 is_inorganic)
            contains_metal).length > 1
        · rw [if_pos h3] at h
          exact Except.noConfusion h
        · rw [if_neg h3] at h
          by_cases h0 : (removeFlagged (removeFlagged comps1 is_inorganic)
              contains_metal).length > 0
          · rw [if_pos h0] at h
            exact Except.noConfusion h
          · rw [if_neg h0] at h
            injection h with h2
            exact absurd h2 (by decide)
      · rintro ⟨_, hc⟩
        exact Option.noConfusion hc
  · rw [if_neg hlen]
    constructor
    · intro h
      exfalso
      by_cases hm : contains_metal (remove_salt_metals mol0) = true
      · rw [if_pos hm] at h
        injection h with h2
        exact absurd h2 (by decide)
      · rw [if_neg hm] at h
        by_cases hi : is_inorganic (remove_salt_metals mol0) = true
        · rw [if_pos hi] at h
          injection h with h2
          exact absurd h2 (by decide)
        · rw [if_neg hi] at h
          exact Except.noConfusion h
    · rintro ⟨hl, _⟩
      exact absurd hl hlen

/-- C5: `standardise` yields the NeutralizationFailed rejection
("Molecule could not be neutralised") exactly when the deduplication
step of a multi-fragment input failed, or when the final
property-cache-update-and-neutralise step on the chosen fragment failed;
being a total function, `standardise` propagates no exception to the
caller in either case. -/
theorem neutralisation_failures_rejected (C : Collaborators) (mol0 : Mol) :
    standardise C mol0 = (false, Sum.inr msgNeutralise) ↔
      ((1 < (GetMolFrags (remove_salt_metals mol0)).length ∧
          remove_duplicate_components C (GetMolFrags (remove_salt_metals mol0)) = none) ∨
        (∃ m, selectStage C mol0 = Except.ok m ∧ neutraliseStep C m = none)) := by
  cases hsel : selectStage C mol0 with
  | error e =>
    simp only [standardise, hsel]
    constructor
    · intro h
      rw [Prod.mk.injEq] at h
      have he : e = msgNeutralise := by
        have h2 := h.2
        injection h2
      left
      exact (selectStage_neut_error_iff C mol0).mp (he ▸ hsel)
    · intro h
      rcases h with ⟨hlen, hrd⟩ | ⟨m, hm, _⟩
      · have hthis := (selectStage_neut_error_iff C mol0).mpr ⟨hlen, hrd⟩
        rw [hsel] at hthis
        injection hthis with h2
        rw [h2]
      · exact Except.noConfusion hm
  | ok m =>
    simp only [standardise, hsel]
    cases hn : neutraliseStep C m with
    | none =>
      constructor
      · intro _
        right
        exact ⟨m, rfl, hn⟩
      · intro _
        rfl
    | some m1 =>
      constructor
      · intro h
        rw [Prod.mk.injEq] at h
        exact absurd h.1 (by decide)
      · intro h
        exfalso
        rcases h with ⟨hlen, hrd⟩ | ⟨m2, hm2, hn2⟩
        · have hthis := (selectStage_neut_error_iff C mol0).mpr ⟨hlen, hrd⟩
          rw [hsel] at hthis
          exact Except.noConfusion hthis
        · injection hm2 with h2
          rw [← h2] at hn2
          rw [hn] at hn2
          exact Option.noConfusion hn2

theorem foldl_removeAtom_props (ids : List Nat) :
    ∀ m : Mol, (ids.foldl removeAtom m).props = m.props := by
  induction ids with
  | nil => intro m; rfl
  | cons i t ih =>
    intro m
    rw [List.foldl_cons, ih]
    rfl

theorem strip_props (m : Mol) : (remove_salt_metals m).props = m.props := by
  rw [remove_salt_metals_eq_fold]
  exact foldl_removeAtom_props _ m

theorem lookup_setPropList_self (l : List (String × String)) (k v : String) :
    (setPropList l k v).lookup k = some v := by
  induction l with
  | nil => simp [setPropList]
  | cons p t ih =>
    obtain ⟨k1, v1⟩ := p
    unfold setPropList
    by_cases h : (k1 == k) = true
    · rw [if_pos h]
      simp
    · rw [if_neg h]
      have hk : (k == k1) = false := by
        rw [beq_eq_false_iff_ne]
        intro he
        apply h
        rw [he]
        exact beq_self_eq_true k1
      rw [List.lookup_cons, hk]
      exact ih

theorem lookup_setPropList_other (l : List (String × String)) (k k1 v1 : String)
    (hne : k ≠ k1) : (setPropList l k1 v1).lookup k = l.lookup k := by
  have hb : (k == k1) = false := by
    rw [beq_eq_false_iff_ne]
    exact hne
  induction l with
  | nil =>
    simp [setPropList, List.lookup_cons, hb]
  | cons p t ih =>
    obtain ⟨k2, v2⟩ := p
    unfold setPropList
    by_cases h : (k2 == k1) = true
    · rw [if_pos h]
      have hk2 : k2 = k1 := by simpa using h
      rw [List.lookup_cons, List.lookup_cons, hb, hk2]
      have hb2 : (k == k2) = false := by
        rw [beq_eq_false_iff_ne]
        rw [hk2]
        exact hne
      rw [hk2] at hb2
      rw [hb2]
    · rw [if_neg h]
      rw [List.lookup_cons, List.lookup_cons]
      cases hk2 : (k == k2) with
      | true => rfl
      | false => exact ih

theorem setProps_lookup_not_mem (ps : List (String × String)) :
    ∀ (m : Mol) (k : String), ¬ k ∈ ps.map Prod.fst →
      (setProps m ps).props.lookup k = m.props.lookup k := by
  induction ps with
  | nil => intro m k _; rfl
  | cons p t ih =>
    intro m k hk
    obtain ⟨k1, v1⟩ := p
    have hk1 : k ≠ k1 := by
      intro he
      apply hk
      rw [List.map_cons]
      exact he ▸ List.mem_cons_self _ _
    have hkt : ¬ k ∈ t.map Prod.fst := by
      intro hmem
      apply hk
      rw [List.map_cons]
      exact List.mem_cons_of_mem _ hmem
    show (setProps (SetProp m k1 v1) t).props.lookup k = m.props.lookup k
    rw [ih (SetProp m k1 v1) k hkt]
    show (setPropList m.props k1 v1).lookup k = m.props.lookup k
    exact lookup_setPropList_other m.props k k1 v1 hk1

theorem setProps_lookup (ps : List (String × String)) :
    ∀ (m : Mol) (k v : String), (ps.map Prod.fst).Nodup → ps.lookup k = some v →
      (setProps m ps).props.lookup k = some v := by
  induction ps with
  | nil =>
    intro m k v _ hv
    exact Option.noConfusion hv
  | cons p t ih =>
    intro m k v hnd hv
    obtain ⟨k1, v1⟩ := p
    rw [List.map_cons] at hnd
    by_cases hb : (k == k1) = true
    · have hk : k = k1 := by simpa using hb
      have hv1 : v1 = v := by
        rw [List.lookup_cons, hb] at hv
        injection hv
      have hkt : ¬ k ∈ t.map Prod.fst := by
        rw [hk]
        intro hmem
        exact (List.pairwise_cons.mp hnd).1 k1 hmem rfl
      show (setProps (SetProp m k1 v1) t).props.lookup k = some v
      rw [setProps_lookup_not_mem t (SetProp m k1 v1) k hkt]
      show (setPropList m.props k1 v1).lookup k = some v
      rw [hk, lookup_setPropList_self m.props k1 v1, hv1]
    · have hv' : t.lookup k = some v := by
        rw [List.lookup_cons] at hv
        cases hkb : (k == k1) with
        | true => exact absurd hkb hb
        | false =>
          rw [hkb] at hv
          exact hv
      show (setProps (SetProp m k1 v1) t).props.lookup k = some v
      exact ih (SetProp m k1 v1) k v ((List.pairwise_cons.mp hnd).2) hv'

/-- C8: in every multi-fragment success (with collaborators that
preserve the property bag, as the RDKit property-cache update and the
neutraliser do), every key/value pair present on the input graph is
present with the same value on the returned fragment: the original
properties are re-attached to the chosen fragment, overwriting any
property already present on it. -/
theorem metadata_preserved (C : Collaborators) (mol0 out : Mol) (k v : String)
    (hnd : (mol0.props.map Prod.fst).Nodup)
    (hu : ∀ a b, C.updatePropertyCache a = some b → b.props = a.props)
    (hne : ∀ a b, C.neutralise a = some b → b.props = a.props)
    (hmulti : 1 < (GetMolFrags (remove_salt_metals mol0)).length)
    (hs : standardise C mol0 = (true, Sum.inl out))
    (hv : mol0.props.lookup k = some v) :
    out.props.lookup k = some v := by
  cases hsel : selectStage C mol0 with
  | error e =>
    simp only [standardise, hsel] at hs
    rw [Prod.mk.injEq] at hs
    exact absurd hs.1 (by decide)
  | ok mch =>
    simp only [standardise, hsel] at hs
    cases hn : neutraliseStep C mch with
    | none =>
      simp only [hn] at hs
      rw [Prod.mk.injEq] at hs
      exact absurd hs.1 (by decide)
    | some m1 =>
      simp only [hn] at hs
      rw [Prod.mk.injEq] at hs
      have hout : m1 = out := by
        have h2 := hs.2
        injection h2
      have hpm : m1.props = mch.props := by
        unfold neutraliseStep at hn
        cases hu2 : C.updatePropertyCache mch with
        | none =>
          rw [hu2] at hn
          exact Option.noConfusion hn
        | some mid =>
          rw [hu2] at hn
          have hn2 : C.neutralise mid = some m1 := hn
          rw [hne mid m1 hn2, hu mch mid hu2]
      have hm : ∃ X, mch = setProps X mol0.props := by
        have hsel2 := hsel
        simp only [selectStage] at hsel2
        rw [if_pos hmulti] at hsel2
        cases hr : remove_duplicate_components C (GetMolFrags (remove_salt_metals mol0)) with
        | none =>
          rw [hr] at hsel2
          exact Except.noConfusion hsel2
        | some comps1 =>
          rw [hr] at hsel2
          dsimp only at hsel2
          by_cases h3 : (removeFlagged (removeFlagged comps1 is_inorganic)
              contains_metal).length > 1
          · rw [if_pos h3] at hsel2
            injection hsel2 with h4
            refine ⟨get_largest_component
              (removeFlagged (removeFlagged comps1 is_inorganic) contains_metal), ?_⟩
            rw [← h4, strip_props]
          · rw [if_neg h3] at hsel2
            by_cases h0 : (removeFlagged (removeFlagged comps1 is_inorganic)
                contains_metal).length > 0
            · rw [if_pos h0] at hsel2
              injection hsel2 with h4
              refine ⟨(removeFlagged (removeFlagged comps1 is_inorganic)
                contains_metal).getD 0 defaultMol, ?_⟩
              rw [← h4, strip_props]
            · rw [if_neg h0] at hsel2
              exact Except.noConfusion hsel2
      obtain ⟨X, hX⟩ := hm
      rw [← hout, hpm, hX]
      exact setProps_lookup mol0.props X k v hnd hv

/-- Witness for C8: two disconnected carbons carrying the property
ID=42; standardisation under property-preserving collaborators succeeds
and the surviving fragment carries ID=42. -/
theorem metadata_preserved_witness :
    standardise trivialCollab twoCMol =
      (true, Sum.inl (⟨[⟨6, 0⟩], [], [("ID", "42")]⟩ : Mol)) ∧
    (⟨[⟨6, 0⟩], [], [("ID", "42")]⟩ : Mol).props.lookup "ID" = some "42" :=
  ⟨by decide,
    metadata_preserved trivialCollab twoCMol ⟨[⟨6, 0⟩], [], [("ID", "42")]⟩ "ID" "42"
      (by decide)
      (fun a b h => congrArg Mol.props (Option.some.inj h).symm)
      (fun a b h => congrArg Mol.props (Option.some.inj h).symm)
      (by decide) (by decide) (by decide)⟩

end Standardise
